import Mathlib

/-!
Shallow embedding of `use_cycle_list` (src/use_cycle_list.rs).

The reactive controller cycles through a list of items.  The reactive
substrate (signals, derived cells, effects) is modelled by explicit state
passing: a `CycleList` value holds the backing list snapshot, the current
state value, and the configured fallback index and position resolver.  The
derived `index` cell is a pure function of that record, exactly as the
`Signal::derive` closure is a pure function of `state` and `list`.
Rust panics (remainder by zero, `expect` on `None`) are modelled by
`Option`: `none` is a fatal abort.  Rust's `%` on `i64` is truncated
remainder, i.e. `Int.tmod`; on `usize` it is `Nat.mod`.  `usize`/`i64`
values are modelled as `Nat`/`Int`; the one machine operation whose
overflow is reachable from in-scope inputs — the `i64` addition
`index as i64 + delta` inside `shift` — has its two's-complement
(release-build) semantics captured by `i64_wrap`, and statements about
`shift` either carry the corresponding no-overflow precondition or go
through `i64_wrap` explicitly.
-/

/-- Rust `a % b` on `usize`: panics (`none`) when `b = 0`. -/
def usize_rem (a b : Nat) : Option Nat :=
  if b = 0 then none else some (a % b)

/-- Rust `a % b` on `i64`: truncated remainder, panics (`none`) when `b = 0`. -/
def i64_rem (a b : Int) : Option Int :=
  if b = 0 then none else some (a.tmod b)

/-- Two's-complement wrap of an exact integer into the `i64` range: the
release-build semantics of an overflowing `i64` operation (debug builds
panic on overflow instead; on the non-overflow range both agree with the
exact value, see `i64_wrap_eq_of_fits`).  This is the machine semantics of
the addition `index.get_untracked() as i64 + delta` inside `shift`, whose
overflow is reachable because `delta` is caller-chosen. -/
def i64_wrap (x : Int) : Int := (x + 2 ^ 63) % 2 ^ 64 - 2 ^ 63

/-- Rust `Iterator::position`: index of the first element satisfying `p`. -/
def position {T : Type} (p : T → Bool) : List T → Option Nat
  | [] => none
  | x :: xs => if p x then some 0 else (position p xs).map (· + 1)

/-- The default `get_position` option:
`|value, list| list.iter().position(|v| v == value)`. -/
def default_get_position {T : Type} [DecidableEq T] (value : T) (list : List T) :
    Option Nat :=
  position (fun v => decide (v = value)) list

/-- State of the controller returned by `use_cycle_list_with_options`:
the backing list snapshot, the `state` signal's current value, and the
configuration captured by the closures. -/
structure CycleList (T : Type) where
  list : List T
  state : T
  fallback_index : Nat
  get_position : T → List T → Option Nat

/-- Options record `UseCycleListOptions` (`MaybeRwSignal` initial value
modelled by its value). -/
structure UseCycleListOptions (T : Type) where
  initial_value : Option T
  fallback_index : Nat
  get_position : T → List T → Option Nat

/-- The `Default` impl for `UseCycleListOptions`. -/
def UseCycleListOptions.default {T : Type} [DecidableEq T] :
    UseCycleListOptions T :=
  { initial_value := none
    fallback_index := 0
    get_position := default_get_position }

/-- The `get_initial_value` closure: the provided initial value if any,
otherwise the first element of the list (`expect` panics on an empty
list, modelled by `none`). -/
def get_initial_value {T : Type} (list : List T) (initial_value : Option T) :
    Option T :=
  match initial_value with
  | some v => some v
  | none => list.head?

/-- `use_cycle_list_with_options`: builds the controller state. `none` is
the construction-time panic (empty list and no initial value). -/
def use_cycle_list_with_options {T : Type} (list : List T)
    (options : UseCycleListOptions T) : Option (CycleList T) :=
  (get_initial_value list options.initial_value).map fun v =>
    { list := list
      state := v
      fallback_index := options.fallback_index
      get_position := options.get_position }

/-- `use_cycle_list`: construction with default options. -/
def use_cycle_list {T : Type} [DecidableEq T] (list : List T) :
    Option (CycleList T) :=
  use_cycle_list_with_options list UseCycleListOptions.default

namespace CycleList

variable {T : Type}

/-- The derived `index` signal: `get_position(state, list)` with
`fallback_index` when the resolver finds nothing. -/
def index (c : CycleList T) : Nat :=
  match c.get_position c.state c.list with
  | some i => i
  | none => c.fallback_index

/-- The `set` closure (`set_index`): `index = i % length`,
`value = list[index]`, `state := value`, returns `value`.  `none` models
the remainder-by-zero panic on an empty list (the bounds-check panic on
indexing is modelled by `List.getElem?`). -/
def set (c : CycleList T) (i : Nat) : Option (T × CycleList T) := do
  let length := c.list.length
  let idx ← usize_rem i length
  let value ← c.list[idx]?
  pure (value, { c with state := value })

/-- The `shift` closure: `i = index.get_untracked() as i64 + delta`,
`index = (i % length) + length`, then `set(index as usize)`.
The `as usize` cast is `Int.toNat`; the intermediate is strictly
positive whenever the remainder does not panic.  The machine `i64`
addition is written here as the exact sum, which coincides with the
machine value only while the sum stays inside the `i64` range
(`i64_wrap_eq_of_fits`); theorems about `shift` therefore carry that
no-overflow precondition, and the behavior of an overflowing call is
analyzed through `i64_wrap` (see `shift_eq_machine`, which equates
`shift` with the `i64_wrap` pipeline on the in-range domain). -/
def shift (c : CycleList T) (delta : Int) : Option (T × CycleList T) := do
  let length : Int := (c.list.length : Int)
  let i : Int := (c.index : Int) + delta
  let m ← i64_rem i length
  let idx : Int := m + length
  set c idx.toNat

/-- The `next` closure: `shift(1)`, return value discarded. -/
def next (c : CycleList T) : Option (CycleList T) :=
  (c.shift 1).map Prod.snd

/-- The `prev` closure: `shift(-1)`, return value discarded. -/
def prev (c : CycleList T) : Option (CycleList T) :=
  (c.shift (-1)).map Prod.snd

/-- One firing of the `Effect::watch` observer after the backing list has
been mutated to `newList`: the derived `index` has already recomputed
against the new list, and the observer calls `set(index.get())`.  The
initial (setup-time) run is suppressed: construction alone never calls
`set`, only a genuine list change does. -/
def on_list_change (c : CycleList T) (newList : List T) :
    Option (CycleList T) :=
  let c2 : CycleList T := { c with list := newList }
  (c2.set c2.index).map Prod.snd

/-- Iterated `next` calls, aborting on the first panic. -/
def next_iter : Nat → CycleList T → Option (CycleList T)
  | 0, c => some c
  | n + 1, c => (c.next).bind (next_iter n)

end CycleList

/-! ### Arithmetic facts about Rust's truncated remainder -/

/-- Lower bound of the truncated remainder for a positive divisor. -/
theorem tmod_lower_bound (i n : Int) (hn : 0 < n) : -n < i.tmod n := by
  rcases i with m | m
  · have h0 : (0:Int) ≤ (Int.ofNat m).tmod n :=
      Int.tmod_nonneg n (Int.ofNat_nonneg m)
    omega
  · obtain ⟨k, rfl⟩ : ∃ k : Nat, n = (k : Int) :=
      ⟨n.toNat, (Int.toNat_of_nonneg (le_of_lt hn)).symm⟩
    have hk : 0 < k := by exact_mod_cast hn
    have hdef : (Int.negSucc m).tmod ((k : Nat) : Int)
        = -(((m.succ % k : Nat)) : Int) := rfl
    have hlt : m.succ % k < k := Nat.mod_lt _ hk
    rw [hdef]
    omega

/-- The double-wrap intermediate of `shift` is congruent to the Euclidean
remainder. -/
theorem tmod_add_emod (i n : Int) : (i.tmod n + n) % n = i % n := by
  rw [Int.tmod_def]
  have h : i - n * i.tdiv n + n = i + n * (1 - i.tdiv n) := by ring
  rw [h, Int.add_mul_emod_self_left]

/-- Applying the final `usize` modulo of `set` to the double-wrap
intermediate of `shift` yields the Euclidean remainder. -/
theorem wrap_toNat_mod (i : Int) (len : Nat) (h : 0 < len) :
    (i.tmod (len : Int) + (len : Int)).toNat % len = (i % (len : Int)).toNat := by
  have hn : (0:Int) < (len:Int) := by exact_mod_cast h
  have hlow := tmod_lower_bound i len hn
  have hpos : 0 ≤ i.tmod (len : Int) + (len : Int) := by omega
  have hcast : (((i.tmod (len:Int) + (len:Int)).toNat % len : Nat) : Int)
      = (i.tmod (len:Int) + (len:Int)) % (len:Int) := by
    rw [Int.ofNat_emod, Int.toNat_of_nonneg hpos]
  have he := tmod_add_emod i (len : Int)
  have hnn : 0 ≤ i % (len:Int) := Int.emod_nonneg i (by omega)
  omega

/-- On the non-overflow range the machine `i64` value is the exact one. -/
theorem i64_wrap_eq_of_fits (x : Int) (h1 : -(2 ^ 63) ≤ x) (h2 : x < 2 ^ 63) :
    i64_wrap x = x := by
  unfold i64_wrap
  omega

/-! ### Facts about `Iterator::position` -/

/-- A found position is in bounds and the element there satisfies the
predicate. -/
theorem position_spec {T : Type} {p : T → Bool} {l : List T} {i : Nat}
    (h : position p l = some i) :
    i < l.length ∧ ∃ x, l[i]? = some x ∧ p x = true := by
  induction l generalizing i with
  | nil => simp [position] at h
  | cons y ys ih =>
    by_cases hy : p y
    · simp [position, hy] at h
      subst h
      exact ⟨by simp, y, by simp, hy⟩
    · simp [position, hy] at h
      obtain ⟨a, ha, rfl⟩ := h
      obtain ⟨hlt, x, hx, hpx⟩ := ih ha
      refine ⟨by simpa using Nat.succ_lt_succ hlt, x, ?_, hpx⟩
      simpa using hx

/-- If some member satisfies the predicate, a position is found. -/
theorem position_isSome_of_mem {T : Type} {p : T → Bool} {l : List T} {x : T}
    (hx : x ∈ l) (hp : p x = true) : (position p l).isSome := by
  induction l with
  | nil => simp at hx
  | cons y ys ih =>
    by_cases hy : p y
    · simp [position, hy]
    · rcases List.mem_cons.mp hx with rfl | hmem
      · exact absurd hp hy
      · simp only [position, hy, if_false, Bool.false_eq_true, Option.isSome_map']
        exact ih hmem

/-- On a duplicate-free list, the position of the `k`-th element is `k`. -/
theorem position_nodup {T : Type} [DecidableEq T] {l : List T}
    (hnd : l.Nodup) {k : Nat} (hk : k < l.length) :
    position (fun v => decide (v = l[k])) l = some k := by
  induction l generalizing k with
  | nil => simp at hk
  | cons y ys ih =>
    rcases k with _ | k
    · simp [position]
    · have hy : y ∉ ys := (List.nodup_cons.mp hnd).1
      have hnd2 : ys.Nodup := (List.nodup_cons.mp hnd).2
      have hk2 : k < ys.length := by simpa using Nat.lt_of_succ_lt_succ hk
      have hget : (y :: ys)[k+1] = ys[k] := List.getElem_cons_succ ..
      have hne : ¬ (y = ys[k]) := fun hEq => hy (hEq ▸ List.getElem_mem hk2)
      simp only [position, hget]
      rw [if_neg (by simpa using hne)]
      rw [ih hnd2 hk2]
      rfl

namespace CycleList

variable {T : Type}

/-- Closed form of `set`: one modulo, one lookup, one state write. -/
theorem set_eq (c : CycleList T) (i : Nat) :
    c.set i = (c.list[i % c.list.length]?).map fun v => (v, { c with state := v }) := by
  by_cases h : c.list.length = 0
  · have hnil : c.list = [] := List.length_eq_zero.mp h
    simp [CycleList.set, usize_rem, h, hnil]
  · simp only [CycleList.set, usize_rem, h, if_false, Option.bind_eq_bind,
      Option.some_bind]
    cases hx : c.list[i % c.list.length]? <;> simp [hx]

/-- `shift` delegates to `set` at the double-wrapped intermediate index. -/
theorem shift_eq (c : CycleList T) (delta : Int) (h : c.list ≠ []) :
    c.shift delta
      = c.set (((c.index : Int) + delta).tmod (c.list.length : Int)
          + (c.list.length : Int)).toNat := by
  have hlen : 0 < c.list.length := List.length_pos.mpr h
  have hz : ((c.list.length : Nat) : Int) ≠ 0 := by exact_mod_cast Nat.pos_iff_ne_zero.mp hlen
  simp [CycleList.shift, i64_rem, hz]

/-- `shift` lands on the Euclidean remainder of `index + delta`. -/
theorem shift_lands (c : CycleList T) (delta : Int) (h : c.list ≠ []) :
    (((c.index : Int) + delta) % (c.list.length : Int)).toNat < c.list.length ∧
    c.shift delta
      = (c.list[(((c.index : Int) + delta) % (c.list.length : Int)).toNat]?).map
          (fun v => (v, { c with state := v })) := by
  have hlen : 0 < c.list.length := List.length_pos.mpr h
  have hn : (0:Int) < (c.list.length : Int) := by exact_mod_cast hlen
  constructor
  · have h1 := Int.emod_lt_of_pos ((c.index : Int) + delta) hn
    have h2 := Int.emod_nonneg ((c.index : Int) + delta) (ne_of_gt hn)
    omega
  · rw [shift_eq c delta h, set_eq]
    rw [wrap_toNat_mod _ _ hlen]

/-- Whenever the sum `index + delta` stays inside the `i64` range, `shift`
coincides with the source's machine pipeline written through `i64_wrap`:
this ties every statement about `shift` on the no-overflow domain to the
machine computation, and outside that domain the `i64_wrap` pipeline is
the (release-build) behavior of the code while `shift`'s exact sum is not. -/
theorem shift_eq_machine (c : CycleList T) (delta : Int) (h : c.list ≠ [])
    (h1 : -(2 ^ 63) ≤ (c.index : Int) + delta)
    (h2 : (c.index : Int) + delta < 2 ^ 63) :
    c.shift delta
      = c.set ((i64_wrap ((c.index : Int) + delta)).tmod (c.list.length : Int)
          + (c.list.length : Int)).toNat := by
  rw [i64_wrap_eq_of_fits _ h1 h2]
  exact shift_eq c delta h

/-- With the default resolver, a state value present in the list resolves
to an in-bounds index holding that value. -/
theorem index_of_mem [DecidableEq T] (c : CycleList T)
    (hgp : c.get_position = default_get_position) (hmem : c.state ∈ c.list) :
    c.index < c.list.length ∧ c.list[c.index]? = some c.state := by
  have hsome := position_isSome_of_mem
    (p := fun v => decide (v = c.state)) hmem (by simp)
  obtain ⟨k, hk⟩ := Option.isSome_iff_exists.mp hsome
  have hidx : c.index = k := by
    simp [CycleList.index, hgp, default_get_position, hk]
  obtain ⟨hlt, x, hx, hpx⟩ := position_spec hk
  have hxs : x = c.state := by simpa using hpx
  subst hxs
  rw [hidx]
  exact ⟨hlt, hx⟩

/-- With the default resolver on a duplicate-free list, the index of a
state equal to the `k`-th element is `k`. -/
theorem index_nodup [DecidableEq T] (c : CycleList T)
    (hgp : c.get_position = default_get_position) (hnd : c.list.Nodup)
    {k : Nat} (hk : k < c.list.length) (hst : c.state = c.list[k]) :
    c.index = k := by
  have hp := position_nodup hnd hk
  simp [CycleList.index, hgp, default_get_position, hst, hp]

end CycleList

/-- C5: for a non-empty list of length `n`, `set i` computes `i % n`,
reads the list element there, assigns it to `state`, and returns that
same element; consequently `set i` coincides with `set (i % n)`. -/
theorem C5_set_modular {T : Type} (c : CycleList T) (i : Nat)
    (h : c.list ≠ []) :
    ∃ v c', c.set i = some (v, c')
      ∧ c.list[i % c.list.length]? = some v
      ∧ c' = { c with state := v }
      ∧ c.set i = c.set (i % c.list.length) := by
  have hlen : 0 < c.list.length := List.length_pos.mpr h
  have hlt : i % c.list.length < c.list.length := Nat.mod_lt _ hlen
  have hv : c.list[i % c.list.length]? = some (c.list[i % c.list.length]) :=
    List.getElem?_eq_getElem hlt
  refine ⟨c.list[i % c.list.length], _, ?_, hv, rfl, ?_⟩
  · rw [CycleList.set_eq, hv]
    rfl
  · rw [CycleList.set_eq, CycleList.set_eq, Nat.mod_mod_of_dvd i dvd_rfl]

/-- Concrete controller used to instantiate `C5_set_modular`. -/
def w5 : CycleList String :=
  { list := ["a", "b", "c"], state := "a", fallback_index := 0,
    get_position := default_get_position }

/-- C5 witness: `set 7` on a three-element list selects index `7 % 3 = 1`. -/
theorem C5_witness :
    (w5.list ≠ []) ∧ ∃ v c', w5.set 7 = some (v, c')
      ∧ w5.list[7 % w5.list.length]? = some v
      ∧ c' = { w5 with state := v }
      ∧ w5.set 7 = w5.set (7 % w5.list.length) :=
  ⟨by decide, C5_set_modular w5 7 (by decide)⟩

/-- Concrete controller (three-element list, current index 1) for the C2
counterexample and witness. -/
def w2 : CycleList String :=
  { list := ["a", "b", "c"], state := "b", fallback_index := 0,
    get_position := default_get_position }

/-- C2 counterexample: the claim's "delta of any magnitude" fails at
`delta = i64::MAX`.  With current index 1 on a three-element list, the
machine addition `index as i64 + delta` overflows: release builds wrap
the sum to `-2^63` (debug builds panic), and running the remainder of
`shift`'s pipeline on the wrapped sum lands on index 1 (element `"b"`),
while the claim asserts landing on `(1 + (2^63 - 1)) mod 3 = 2`
(element `"c"`). -/
theorem C2_counterexample :
    i64_wrap ((w2.index : Int) + (2 ^ 63 - 1)) = -(2 ^ 63)
    ∧ ¬ i64_wrap ((w2.index : Int) + (2 ^ 63 - 1))
        = (w2.index : Int) + (2 ^ 63 - 1)
    ∧ (∃ c', w2.set ((i64_wrap ((w2.index : Int) + (2 ^ 63 - 1))).tmod
            (w2.list.length : Int) + (w2.list.length : Int)).toNat
          = some ("b", c') ∧ c'.state = "b")
    ∧ (((w2.index : Int) + (2 ^ 63 - 1)) % (w2.list.length : Int)).toNat = 2
    ∧ w2.list[2]? = some "c"
    ∧ ¬ ("b" : String) = "c" := by
  exact ⟨by decide, by decide, ⟨_, rfl, rfl⟩, by decide, rfl, by decide⟩

/-- C2 (amended): for a non-empty list of length `n` and any signed
`delta` such that the machine addition `index + delta` does **not**
overflow the `i64` range (on that domain the machine sum is the exact
sum, first conjunct), `shift` reads the current index, delegates to `set`
at the double-wrapped intermediate `(cur + delta).tmod n + n`, and lands
on the element at index `(cur + delta) mod n` taken in `[0, n)`. -/
theorem C2_shift_cyclic {T : Type} (c : CycleList T) (delta : Int)
    (h : c.list ≠ [])
    (hlo : -(2 ^ 63) ≤ (c.index : Int) + delta)
    (hhi : (c.index : Int) + delta < 2 ^ 63) :
    i64_wrap ((c.index : Int) + delta) = (c.index : Int) + delta
      ∧ c.shift delta
        = c.set (((c.index : Int) + delta).tmod (c.list.length : Int)
            + (c.list.length : Int)).toNat
      ∧ (((c.index : Int) + delta) % (c.list.length : Int)).toNat < c.list.length
      ∧ ∃ v c', c.shift delta = some (v, c')
          ∧ c.list[(((c.index : Int) + delta) % (c.list.length : Int)).toNat]?
              = some v
          ∧ c'.state = v ∧ c'.list = c.list
          ∧ c'.fallback_index = c.fallback_index
          ∧ c'.get_position = c.get_position := by
  obtain ⟨hlt, heq⟩ := CycleList.shift_lands c delta h
  refine ⟨i64_wrap_eq_of_fits _ hlo hhi, CycleList.shift_eq c delta h, hlt, ?_⟩
  have hv := List.getElem?_eq_getElem hlt (l := c.list)
  rw [hv] at heq
  simp only [Option.map_some'] at heq
  exact ⟨_, _, heq, hv, rfl, rfl, rfl, rfl⟩

/-- C2 witness: `shift (-7)` on a three-element list with current index 1
(the sum `1 - 7` is far inside the `i64` range) delegates to `set` at the
double-wrapped intermediate. -/
theorem C2_witness :
    (w2.list ≠ []
      ∧ -(2 ^ 63) ≤ (w2.index : Int) + (-7)
      ∧ (w2.index : Int) + (-7) < 2 ^ 63)
    ∧ w2.shift (-7)
        = w2.set (((w2.index : Int) + (-7)).tmod (w2.list.length : Int)
            + (w2.list.length : Int)).toNat :=
  ⟨⟨by decide, by decide, by decide⟩,
    (C2_shift_cyclic w2 (-7) (by decide) (by decide) (by decide)).2.1⟩

/-- C10: on a non-empty list (overflow of `index + delta` being excluded
by the exact-integer model), `set` and `shift` cannot panic past the
modulo: the computed index `i % len` is in bounds, and the intermediate
`(i tmod len) + len` of `shift` is strictly positive, below `2 * len`,
and its `as usize` cast is value-preserving. -/
theorem C10_no_panic_past_modulo {T : Type} (c : CycleList T) (i : Nat)
    (delta : Int) (h : c.list ≠ []) :
    i % c.list.length < c.list.length
    ∧ (c.set i).isSome
    ∧ (0 : Int) < ((c.index : Int) + delta).tmod (c.list.length : Int)
        + (c.list.length : Int)
    ∧ ((c.index : Int) + delta).tmod (c.list.length : Int)
        + (c.list.length : Int) < 2 * (c.list.length : Int)
    ∧ ((((c.index : Int) + delta).tmod (c.list.length : Int)
        + (c.list.length : Int)).toNat : Int)
      = ((c.index : Int) + delta).tmod (c.list.length : Int)
        + (c.list.length : Int)
    ∧ (c.shift delta).isSome := by
  have hlen : 0 < c.list.length := List.length_pos.mpr h
  have hn : (0:Int) < (c.list.length : Int) := by exact_mod_cast hlen
  have hlt : i % c.list.length < c.list.length := Nat.mod_lt _ hlen
  have hlow := tmod_lower_bound ((c.index : Int) + delta) (c.list.length : Int) hn
  have hhi := Int.tmod_lt_of_pos ((c.index : Int) + delta) hn
  obtain ⟨hlt2, heq⟩ := CycleList.shift_lands c delta h
  refine ⟨hlt, ?_, by omega, by omega, by omega, ?_⟩
  · rw [CycleList.set_eq, List.getElem?_eq_getElem hlt]
    rfl
  · rw [heq, List.getElem?_eq_getElem hlt2]
    rfl

/-- Concrete controller used to instantiate `C10_no_panic_past_modulo`. -/
def w10 : CycleList String :=
  { list := ["a", "b"], state := "b", fallback_index := 0,
    get_position := default_get_position }

/-- C10 witness: a two-element list with `i = 5` and `delta = -9`. -/
theorem C10_witness :
    (w10.list ≠ []) ∧
    (5 % w10.list.length < w10.list.length
    ∧ (w10.set 5).isSome
    ∧ (0 : Int) < ((w10.index : Int) + (-9)).tmod (w10.list.length : Int)
        + (w10.list.length : Int)
    ∧ ((w10.index : Int) + (-9)).tmod (w10.list.length : Int)
        + (w10.list.length : Int) < 2 * (w10.list.length : Int)
    ∧ ((((w10.index : Int) + (-9)).tmod (w10.list.length : Int)
        + (w10.list.length : Int)).toNat : Int)
      = ((w10.index : Int) + (-9)).tmod (w10.list.length : Int)
        + (w10.list.length : Int)
    ∧ (w10.shift (-9)).isSome) :=
  ⟨by decide, C10_no_panic_past_modulo w10 5 (-9) (by decide)⟩

/-- C7: with the default position resolver, whenever the backing list is
non-empty and the fallback index is within bounds, the derived `index`
is in `[0, len(list))`.  The derived cell is a pure function of the
current record, so this covers every reachable controller state. -/
theorem C7_index_in_bounds {T : Type} [DecidableEq T] (c : CycleList T)
    (hgp : c.get_position = default_get_position)
    (h : c.list ≠ []) (hfb : c.fallback_index < c.list.length) :
    c.index < c.list.length := by
  rcases hp : c.get_position c.state c.list with _ | k
  · simp [CycleList.index, hp, hfb]
  · rw [hgp] at hp
    have hk : k < c.list.length := (position_spec hp).1
    simp [CycleList.index, hgp, hp, hk]

/-- Concrete controller used to instantiate `C7_index_in_bounds`: its
state is absent from the list, so the index falls back. -/
def w7 : CycleList String :=
  { list := ["a", "b", "c"], state := "z", fallback_index := 2,
    get_position := default_get_position }

/-- C7 witness: state not in the list, in-bounds fallback index 2. -/
theorem C7_witness :
    (w7.get_position = default_get_position
      ∧ w7.list ≠ [] ∧ w7.fallback_index < w7.list.length)
    ∧ w7.index < w7.list.length :=
  ⟨⟨rfl, by decide, by decide⟩,
    C7_index_in_bounds w7 rfl (by decide) (by decide)⟩

/-- C6: exactly two fatal conditions.  Construction aborts iff the list is
empty and no initial value is given; `set` and `shift` (hence `next` and
`prev`) abort iff the backing list is empty; the position resolver finding
nothing is non-fatal and falls back to `fallback_index`.  In this model an
abort (`none`) produces no successor state at all, so a fatal condition
never mutates `state`. -/
theorem C6_fatal_conditions {T : Type} :
    (∀ (list : List T) (options : UseCycleListOptions T),
        use_cycle_list_with_options list options = none
          ↔ list = [] ∧ options.initial_value = none)
    ∧ (∀ (c : CycleList T) (i : Nat), c.set i = none ↔ c.list = [])
    ∧ (∀ (c : CycleList T) (delta : Int), c.shift delta = none ↔ c.list = [])
    ∧ (∀ c : CycleList T, c.next = none ↔ c.list = [])
    ∧ (∀ c : CycleList T, c.prev = none ↔ c.list = [])
    ∧ (∀ c : CycleList T, c.get_position c.state c.list = none
          → c.index = c.fallback_index) := by
  have hset : ∀ (c : CycleList T) (i : Nat), c.set i = none ↔ c.list = [] := by
    intro c i
    rw [CycleList.set_eq]
    constructor
    · intro hnone
      by_contra hne
      have hlen : 0 < c.list.length := List.length_pos.mpr hne
      rw [List.getElem?_eq_getElem (Nat.mod_lt _ hlen)] at hnone
      simp at hnone
    · intro hnil
      simp [hnil]
  have hshift : ∀ (c : CycleList T) (delta : Int),
      c.shift delta = none ↔ c.list = [] := by
    intro c delta
    constructor
    · intro hnone
      by_contra hne
      obtain ⟨hlt, heq⟩ := CycleList.shift_lands c delta hne
      rw [heq, List.getElem?_eq_getElem hlt] at hnone
      simp at hnone
    · intro hnil
      have : ((c.list.length : Nat) : Int) = 0 := by simp [hnil]
      simp [CycleList.shift, i64_rem, this]
  refine ⟨?_, hset, hshift, ?_, ?_, ?_⟩
  · intro list options
    cases hiv : options.initial_value with
    | some v =>
        simp [use_cycle_list_with_options, get_initial_value, hiv]
    | none =>
        simp [use_cycle_list_with_options, get_initial_value, hiv,
          List.head?_eq_none_iff]
  · intro c
    rw [CycleList.next, Option.map_eq_none', hshift]
  · intro c
    rw [CycleList.prev, Option.map_eq_none', hshift]
  · intro c hnone
    simp [CycleList.index, hnone]

/-- C1: one firing of the list-change observer (whose setup-time run is
suppressed) re-reads the recomputed derived index against the new list and
calls `set` with it; concretely, with default options, from list
`["Dog", "Cat", "Lizard"]` and state `"Lizard"` (index 2), mutating the
list to `["Dog", "Cat"]` yields state `"Dog"` and index 0. -/
theorem C1_observer_resync :
    (∀ (T : Type) (c : CycleList T) (newList : List T),
        c.on_list_change newList
          = (CycleList.set { c with list := newList }
              (CycleList.index { c with list := newList })).map Prod.snd)
    ∧ ∃ c0 r1 c1 c2,
        use_cycle_list ["Dog", "Cat", "Lizard"] = some c0
        ∧ c0.set 2 = some (r1, c1)
        ∧ c1.state = "Lizard" ∧ c1.index = 2
        ∧ c1.on_list_change ["Dog", "Cat"] = some c2
        ∧ c2.state = "Dog" ∧ c2.index = 0 := by
  refine ⟨fun T c newList => rfl, ?_⟩
  exact ⟨_, _, _, _, rfl, rfl, rfl, rfl, rfl, rfl, rfl⟩

/-- C8: with default options over the eight-animal list, the state
initializes to the first element `"Dog"`, and one `prev()` call wraps
from index 0 to index 7, leaving state `"Seal"`. -/
theorem C8_default_prev_wraps :
    ∃ c0 c1,
      use_cycle_list
          ["Dog", "Cat", "Lizard", "Shark", "Whale", "Dolphin", "Octopus", "Seal"]
        = some c0
      ∧ c0.state = "Dog"
      ∧ c0.prev = some c1
      ∧ c1.state = "Seal" ∧ c1.index = 7 := by
  exact ⟨_, _, rfl, rfl, rfl, rfl, rfl⟩

/-- C9: with the default position resolver, a list mutation after which
the current state value is still present leaves `state` unchanged: the
derived index re-resolves to the first position of `state` in the new
list and `set` writes back the element found there. -/
theorem C9_resync_preserves_present_state {T : Type} [DecidableEq T]
    (c : CycleList T) (newList : List T)
    (hgp : c.get_position = default_get_position)
    (hmem : c.state ∈ newList) :
    ∃ c', c.on_list_change newList = some c'
      ∧ c'.state = c.state ∧ c'.list = newList := by
  have h2 := CycleList.index_of_mem
    (c := { c with list := newList }) hgp hmem
  obtain ⟨hlt, hget⟩ := h2
  refine ⟨{ { c with list := newList } with state := c.state }, ?_, rfl, rfl⟩
  rw [CycleList.on_list_change, CycleList.set_eq, Nat.mod_eq_of_lt hlt, hget]
  rfl

/-- Transport of a list lookup along an index equality. -/
theorem get_congr {T : Type} (L : List T) {i1 i2 : Nat} (h1 : i1 < L.length)
    (heq : i1 = i2) : ∃ h2 : i2 < L.length, L.get ⟨i1, h1⟩ = L.get ⟨i2, h2⟩ := by
  subst heq
  exact ⟨h1, rfl⟩

/-- On a duplicate-free list, `next` advances the state from the `k`-th
element to the `(k + 1) mod n`-th. -/
theorem next_nodup {T : Type} [DecidableEq T] (c : CycleList T) (k : Nat)
    (hgp : c.get_position = default_get_position) (hnd : c.list.Nodup)
    (hk : k < c.list.length) (hst : c.state = c.list[k]) :
    ∃ hb : (k + 1) % c.list.length < c.list.length,
      c.next = some { c with state := c.list[(k + 1) % c.list.length] } := by
  have hlen : 0 < c.list.length := Nat.lt_of_le_of_lt (Nat.zero_le k) hk
  have hne : c.list ≠ [] := List.length_pos.mp hlen
  have hidx : c.index = k := CycleList.index_nodup c hgp hnd hk hst
  obtain ⟨hlt, heq⟩ := CycleList.shift_lands c 1 hne
  have ht : (((c.index : Int) + 1) % (c.list.length : Int)).toNat
      = (k + 1) % c.list.length := by
    have h1 : ((k : Int) + 1) = ((k + 1 : Nat) : Int) := by push_cast; ring
    rw [hidx, h1, ← Int.ofNat_emod]
    omega
  rw [ht] at heq
  have hb : (k + 1) % c.list.length < c.list.length := Nat.mod_lt _ hlen
  refine ⟨hb, ?_⟩
  rw [CycleList.next, heq, List.getElem?_eq_getElem hb]
  rfl

/-- Iterating `next` `j` times on a duplicate-free list moves the state
from the `k`-th element to the `(k + j) mod n`-th. -/
theorem next_iter_nodup {T : Type} [DecidableEq T] (j : Nat) :
    ∀ (c : CycleList T) (k : Nat), c.get_position = default_get_position →
      c.list.Nodup → ∀ hk : k < c.list.length, c.state = c.list[k] →
      ∃ c', CycleList.next_iter j c = some c'
        ∧ c'.list = c.list ∧ c'.get_position = c.get_position
        ∧ ∃ hk2 : (k + j) % c.list.length < c.list.length,
            c'.state = c.list[(k + j) % c.list.length] := by
  induction j with
  | zero =>
    intro c k hgp hnd hk hst
    have hmod : k = (k + 0) % c.list.length := by
      rw [Nat.add_zero, Nat.mod_eq_of_lt hk]
    obtain ⟨h2, hEq⟩ := get_congr c.list hk hmod
    exact ⟨c, rfl, rfl, rfl, h2, hst.trans hEq⟩
  | succ j ih =>
    intro c k hgp hnd hk hst
    have hlen : 0 < c.list.length := Nat.lt_of_le_of_lt (Nat.zero_le k) hk
    obtain ⟨hb, hstep⟩ := next_nodup c k hgp hnd hk hst
    obtain ⟨c', hrun, hlist, hgp2, hk2, hstate⟩ :=
      ih { c with state := c.list[(k + 1) % c.list.length] }
        ((k + 1) % c.list.length) hgp hnd hb rfl
    have hidx2 : ((k + 1) % c.list.length + j) % c.list.length
        = (k + (j + 1)) % c.list.length := by
      rw [Nat.mod_add_mod]
      congr 1
      omega
    obtain ⟨h2, hEq⟩ := get_congr c.list hk2 hidx2
    refine ⟨c', ?_, hlist, hgp2, h2, hstate.trans hEq⟩
    rw [CycleList.next_iter, hstep, Option.some_bind]
    exact hrun

/-- C3 counterexample: on the list `["a", "b", "a"]` (which contains a
duplicate) with initial value `"a"`, three `next()` calls end on `"b"`,
not on the initial value: the derived index re-resolves the duplicated
value to its first occurrence. -/
theorem C3_counterexample :
    ∃ c c', use_cycle_list_with_options ["a", "b", "a"]
        { UseCycleListOptions.default with initial_value := some "a" } = some c
      ∧ CycleList.next_iter (["a", "b", "a"] : List String).length c = some c'
      ∧ c'.state = "b" ∧ ¬ c'.state = "a" := by
  exact ⟨_, _, rfl, rfl, rfl, by decide⟩

/-- C3 (amended): for every non-empty **duplicate-free** list `L` and
every initial value `v0` present in `L`, constructing the controller with
initial value `v0` and calling `next()` exactly `len(L)` times returns
the state to `v0`. -/
theorem C3_full_cycle_nodup {T : Type} [DecidableEq T] (L : List T) (v0 : T)
    (hnd : L.Nodup) (hmem : v0 ∈ L) :
    ∃ c c', use_cycle_list_with_options L
        { UseCycleListOptions.default with initial_value := some v0 } = some c
      ∧ CycleList.next_iter L.length c = some c'
      ∧ c'.state = v0 := by
  obtain ⟨k, hk, hkv⟩ := List.mem_iff_getElem.mp hmem
  refine ⟨{ list := L, state := v0, fallback_index := 0,
            get_position := default_get_position }, ?_⟩
  obtain ⟨c', hrun, hlist, hgp, hk2, hstate⟩ :=
    next_iter_nodup L.length
      { list := L, state := v0, fallback_index := 0,
        get_position := default_get_position }
      k rfl hnd hk hkv.symm
  have hmod : (k + L.length) % L.length = k := by
    rw [Nat.add_mod_right, Nat.mod_eq_of_lt hk]
  obtain ⟨h2, hEq⟩ := get_congr L hk2 hmod
  refine ⟨c', rfl, hrun, ?_⟩
  rw [hstate.trans hEq]
  exact hkv

/-- C3 witness: the duplicate-free list `["x", "y", "z"]` with initial
value `"y"` returns to `"y"` after three `next()` calls. -/
theorem C3_witness :
    ((["x", "y", "z"] : List String).Nodup ∧ "y" ∈ (["x", "y", "z"] : List String))
    ∧ ∃ c c', use_cycle_list_with_options ["x", "y", "z"]
        { UseCycleListOptions.default with initial_value := some "y" } = some c
      ∧ CycleList.next_iter (["x", "y", "z"] : List String).length c = some c'
      ∧ c'.state = "y" :=
  ⟨⟨by decide, by decide⟩,
    C3_full_cycle_nodup ["x", "y", "z"] "y" (by decide) (by decide)⟩

/-- C4 counterexample: `shift delta` then `shift (-delta)` does not always
restore `state`.  With the duplicate-containing list `["a", "b", "a"]`,
state `"a"` and `delta = 2`, the pair of calls ends on `"b"`; with the
list `["x", "y"]` and a state `"z"` not present in it, `delta = 1` ends
on `"x"`; and with the duplicate-free list `["p", "q", "r"]`, member
state `"q"` (index 1) and `delta = i64::MAX`, the machine addition
`index as i64 + delta` overflows (release builds wrap the first sum to
`-2^63`, debug builds panic), so the pair of calls — written through the
machine pipeline `i64_wrap` that `shift_eq_machine` equates with `shift`
on the in-range domain — ends on `"p"`, a different element. -/
theorem C4_counterexample :
    (∃ c c1 c2 v1 v2,
        use_cycle_list_with_options ["a", "b", "a"]
          { UseCycleListOptions.default with initial_value := some "a" } = some c
        ∧ c.shift 2 = some (v1, c1)
        ∧ c1.shift (-2) = some (v2, c2)
        ∧ c.state = "a" ∧ c2.state = "b" ∧ ¬ c2.state = c.state)
    ∧ (∃ c c1 c2 v1 v2,
        use_cycle_list_with_options ["x", "y"]
          { UseCycleListOptions.default with initial_value := some "z" } = some c
        ∧ c.shift 1 = some (v1, c1)
        ∧ c1.shift (-1) = some (v2, c2)
        ∧ c.state = "z" ∧ c2.state = "x" ∧ ¬ c2.state = c.state)
    ∧ (∃ c c1 c2 v1 v2,
        use_cycle_list_with_options ["p", "q", "r"]
          { UseCycleListOptions.default with initial_value := some "q" } = some c
        ∧ ¬ i64_wrap ((c.index : Int) + (2 ^ 63 - 1))
            = (c.index : Int) + (2 ^ 63 - 1)
        ∧ c.set ((i64_wrap ((c.index : Int) + (2 ^ 63 - 1))).tmod
              (c.list.length : Int) + (c.list.length : Int)).toNat
            = some (v1, c1)
        ∧ c1.set ((i64_wrap ((c1.index : Int) + -(2 ^ 63 - 1))).tmod
              (c1.list.length : Int) + (c1.list.length : Int)).toNat
            = some (v2, c2)
        ∧ c.state = "q" ∧ c2.state = "p" ∧ ¬ c2.state = c.state) := by
  refine ⟨?_, ?_, ?_⟩
  · exact ⟨_, _, _, _, _, rfl, rfl, rfl, rfl, rfl, by decide⟩
  · exact ⟨_, _, _, _, _, rfl, rfl, rfl, rfl, rfl, by decide⟩
  · exact ⟨_, _, _, _, _, rfl, by decide, rfl, rfl, rfl, rfl, by decide⟩

/-- C4 (amended): for a **duplicate-free** list, the default position
resolver, a current state that is **a member** of the list, and a `delta`
for which **neither** machine addition `index + delta` (first call) nor
`index + (-delta)` (second call) overflows the `i64` range (on that
domain the machine sums are the exact sums, the two `i64_wrap`
conjuncts), `shift delta` followed by `shift (-delta)` (list unchanged)
restores the original value of `state`. -/
theorem C4_shift_inverse_nodup {T : Type} [DecidableEq T] (c : CycleList T)
    (delta : Int) (hgp : c.get_position = default_get_position)
    (hnd : c.list.Nodup) (hmem : c.state ∈ c.list)
    (hlo1 : -(2 ^ 63) ≤ (c.index : Int) + delta)
    (hhi1 : (c.index : Int) + delta < 2 ^ 63)
    (hlo2 : -(2 ^ 63) ≤ ((c.index : Int) + delta) % (c.list.length : Int) - delta)
    (hhi2 : ((c.index : Int) + delta) % (c.list.length : Int) - delta < 2 ^ 63) :
    i64_wrap ((c.index : Int) + delta) = (c.index : Int) + delta
    ∧ ∃ v1 c1 v2 c2, c.shift delta = some (v1, c1)
      ∧ i64_wrap ((c1.index : Int) + -delta) = (c1.index : Int) + -delta
      ∧ c1.shift (-delta) = some (v2, c2)
      ∧ c2.state = c.state := by
  have hne : c.list ≠ [] := List.ne_nil_of_mem hmem
  have hlen : 0 < c.list.length := List.length_pos.mpr hne
  have hn : (0:Int) < (c.list.length : Int) := by exact_mod_cast hlen
  obtain ⟨hik, hget⟩ := CycleList.index_of_mem c hgp hmem
  obtain ⟨hlt1, heq1⟩ := CycleList.shift_lands c delta hne
  generalize hk1 : (((c.index : Int) + delta) % (c.list.length : Int)).toNat = k1
    at hlt1 heq1
  rw [List.getElem?_eq_getElem hlt1] at heq1
  simp only [Option.map_some'] at heq1
  have hidx1 : ({ c with state := c.list[k1] } : CycleList T).index = k1 :=
    CycleList.index_nodup ({ c with state := c.list[k1] } : CycleList T) hgp hnd hlt1 rfl
  have hcast : (k1 : Int) = ((c.index : Int) + delta) % (c.list.length : Int) := by
    rw [← hk1]
    exact Int.toNat_of_nonneg (Int.emod_nonneg _ (ne_of_gt hn))
  have wrapeq2 : i64_wrap ((({ c with state := c.list[k1] } : CycleList T).index : Int)
        + -delta)
      = (({ c with state := c.list[k1] } : CycleList T).index : Int) + -delta := by
    rw [hidx1, hcast]
    exact i64_wrap_eq_of_fits _ (by omega) (by omega)
  obtain ⟨hlt2, heq2⟩ :=
    CycleList.shift_lands ({ c with state := c.list[k1] } : CycleList T) (-delta) hne
  dsimp only at heq2 hlt2
  have ht2 : (((({ c with state := c.list[k1] } : CycleList T).index : Int) + (-delta))
      % (c.list.length : Int)).toNat = c.index := by
    rw [hidx1, ← hk1]
    rw [Int.toNat_of_nonneg (Int.emod_nonneg _ (ne_of_gt hn))]
    rw [Int.add_emod, Int.emod_emod_of_dvd _ dvd_rfl, ← Int.add_emod]
    have hx : (c.index : Int) + delta + -delta = (c.index : Int) := by ring
    rw [hx]
    rw [Int.emod_eq_of_lt (by exact_mod_cast Nat.zero_le c.index)
      (by exact_mod_cast hik)]
    omega
  rw [ht2, hget] at heq2
  simp only [Option.map_some'] at heq2
  exact ⟨i64_wrap_eq_of_fits _ hlo1 hhi1, _, _, _, _, heq1, wrapeq2, heq2, rfl⟩

/-- Concrete controller used to instantiate `C4_shift_inverse_nodup`. -/
def w4 : CycleList String :=
  { list := ["p", "q", "r"], state := "r", fallback_index := 0,
    get_position := default_get_position }

/-- C4 witness: duplicate-free list `["p", "q", "r"]`, member state
`"r"`, `delta = 5` (both machine sums far inside the `i64` range). -/
theorem C4_witness :
    (w4.get_position = default_get_position ∧ w4.list.Nodup ∧ w4.state ∈ w4.list
      ∧ -(2 ^ 63) ≤ (w4.index : Int) + 5 ∧ (w4.index : Int) + 5 < 2 ^ 63
      ∧ -(2 ^ 63) ≤ ((w4.index : Int) + 5) % (w4.list.length : Int) - 5
      ∧ ((w4.index : Int) + 5) % (w4.list.length : Int) - 5 < 2 ^ 63)
    ∧ (i64_wrap ((w4.index : Int) + 5) = (w4.index : Int) + 5
      ∧ ∃ v1 c1 v2 c2, w4.shift 5 = some (v1, c1)
        ∧ i64_wrap ((c1.index : Int) + -5) = (c1.index : Int) + -5
        ∧ c1.shift (-5) = some (v2, c2)
        ∧ c2.state = w4.state) :=
  ⟨⟨rfl, by decide, by decide, by decide, by decide, by decide, by decide⟩,
    C4_shift_inverse_nodup w4 5 rfl (by decide) (by decide)
      (by decide) (by decide) (by decide) (by decide)⟩

/-- Concrete controller used to instantiate
`C9_resync_preserves_present_state`. -/
def w9 : CycleList String :=
  { list := ["a", "b"], state := "b", fallback_index := 0,
    get_position := default_get_position }

/-- C9 witness: mutating the list from `["a", "b"]` to `["c", "b", "a"]`
keeps the still-present state `"b"`. -/
theorem C9_witness :
    (w9.get_position = default_get_position ∧ w9.state ∈ (["c", "b", "a"] : List String))
    ∧ ∃ c', w9.on_list_change ["c", "b", "a"] = some c'
      ∧ c'.state = w9.state ∧ c'.list = ["c", "b", "a"] :=
  ⟨⟨rfl, by decide⟩,
    C9_resync_preserves_present_state w9 ["c", "b", "a"] rfl (by decide)⟩

/-- C6 witness: the two fatal conditions at concrete inputs — empty list
with no initial value at construction, and `set` on an empty list. -/
theorem C6_witness :
    use_cycle_list_with_options ([] : List String)
        { initial_value := none, fallback_index := 0,
          get_position := default_get_position } = none
    ∧ ({ list := [], state := "a", fallback_index := 0,
         get_position := default_get_position } : CycleList String).set 0 = none :=
  ⟨(C6_fatal_conditions.1 _ _).mpr ⟨rfl, rfl⟩,
    (C6_fatal_conditions.2.1 _ 0).mpr rfl⟩
